import Mathlib

/-!
Verification of the base91 codec (Go package `base91`, file `base91.go`).

Bytes and symbols are modelled as natural numbers below 256.  The Go `uint`
bit queue is modelled by `Nat`: in every reachable state the queue holds at
most 21 significant bits (proved below), so 64-bit wraparound never occurs
and plain natural-number arithmetic is a faithful model of the source.

Encoding construction failures (Go `panic`) are modelled by `Option`:
`NewEncoding` returns `none` exactly when the Go code panics.  `Decode`
returns the produced bytes together with `Option Nat`, where `some i`
models `CorruptInputError(i)`.
-/

namespace Base91

/-- The standard base91 alphabet `encodeStd` from the source, as byte values:
`"ABCDEFGHIJKLMNOPQRSTUVWXYZabcdefghijklmnopqrstuvwxyz0123456789!#$%&()*+,./:;<=>?@[]^_`{|}~\""`. -/
def encodeStd : List Nat :=
  [65, 66, 67, 68, 69, 70, 71, 72, 73, 74, 75, 76, 77, 78, 79, 80, 81, 82,
   83, 84, 85, 86, 87, 88, 89, 90,
   97, 98, 99, 100, 101, 102, 103, 104, 105, 106, 107, 108, 109, 110, 111,
   112, 113, 114, 115, 116, 117, 118, 119, 120, 121, 122,
   48, 49, 50, 51, 52, 53, 54, 55, 56, 57,
   33, 35, 36, 37, 38, 40, 41, 42, 43, 44, 46, 47, 58, 59, 60, 61, 62, 63,
   64, 91, 93, 94, 95, 96, 123, 124, 125, 126, 34]

/-- The `Encoding` struct: `encode [91]byte` and `decodeMap [256]byte`. -/
structure Encoding where
  encode : List Nat
  decodeMap : List Nat
deriving Repr, DecidableEq

/-- The decode-map construction loop of `NewEncoding`:
`for i := range encoder { e.decodeMap[encoder[i]] = byte(i) }`,
starting at index `s`. -/
def setSymbols : List Nat → Nat → List Nat → List Nat
  | [], _, m => m
  | c :: rest, s, m => setSymbols rest (s + 1) (m.set c s)

/-- `decodeMap` of `NewEncoding`: all entries initialised to the sentinel
`0xff`, then each alphabet byte mapped to its index. -/
def buildDecodeMap (encoder : List Nat) : List Nat :=
  setSymbols encoder 0 (List.replicate 256 255)

/-- `NewEncoding`: panics (here `none`) when the alphabet is not 91 bytes
long or contains `'\n'` (10) or `'\r'` (13); otherwise builds the table. -/
def NewEncoding (encoder : List Nat) : Option Encoding :=
  if encoder.length ≠ 91 then none
  else if encoder.any (fun c => c == 10 || c == 13) then none
  else some { encode := encoder, decodeMap := buildDecodeMap encoder }

/-- `StdEncoding = NewEncoding(encodeStd)`. -/
def StdEncoding : Encoding :=
  (NewEncoding encodeStd).getD { encode := [], decodeMap := [] }

/-- The decode-table lookup `enc.decodeMap[c]` (sentinel `0xff` = 255 when
`c` is not an alphabet symbol). -/
def valueOf (e : Encoding) (c : Nat) : Nat := e.decodeMap.getD c 255

/-- Symbol lookup `enc.encode[v]` (always called with `v < 91`). -/
def encodeSym (e : Encoding) (v : Nat) : Nat := e.encode.getD v 0

/-- One iteration of the `Encode` loop body for input byte `b`:
merge the byte into the queue and, when more than 13 bits are pending,
extract one 13- or 14-bit value and emit its two symbols. -/
def encodeStep (e : Encoding) (queue numBits b : Nat) : Nat × Nat × List Nat :=
  let queue1 := queue ||| (b <<< numBits)
  let numBits1 := numBits + 8
  if numBits1 > 13 then
    let v := queue1 &&& 8191
    if v > 88 then
      (queue1 >>> 13, numBits1 - 13,
       [encodeSym e (v % 91), encodeSym e (v / 91)])
    else
      let v2 := queue1 &&& 16383
      (queue1 >>> 14, numBits1 - 14,
       [encodeSym e (v2 % 91), encodeSym e (v2 / 91)])
  else
    (queue1, numBits1, [])

/-- The `Encode` input loop, iterating `encodeStep` over the source bytes. -/
def encodeLoop (e : Encoding) : List Nat → Nat → Nat → List Nat → Nat × Nat × List Nat
  | [], queue, numBits, out => (queue, numBits, out)
  | b :: src, queue, numBits, out =>
    match encodeStep e queue numBits b with
    | (q1, n1, em) => encodeLoop e src q1 n1 (out ++ em)

/-- The end-of-input flush of `Encode`: when bits remain, emit
`enc.encode[queue%91]`, and also `enc.encode[queue/91]` when
`numBits > 7 || queue > 90`. -/
def encodeFlushSyms (e : Encoding) (queue numBits : Nat) : List Nat :=
  if numBits > 0 then
    if numBits > 7 ∨ queue > 90 then
      [encodeSym e (queue % 91), encodeSym e (queue / 91)]
    else
      [encodeSym e (queue % 91)]
  else []

/-- `Encode` starting from a given bit-queue state (the loop followed by
the flush); the symbols written to `dst` are returned as a list. -/
def encodeFrom (e : Encoding) (src : List Nat) (queue numBits : Nat) : List Nat :=
  match encodeLoop e src queue numBits [] with
  | (q, nb, out) => out ++ encodeFlushSyms e q nb

/-- `Encode(dst, src)`: the list of symbols written (its length is the
returned byte count `n`). -/
def Encode (e : Encoding) (src : List Nat) : List Nat :=
  encodeFrom e src 0 0

/-- Round `a / b` to the nearest integer, ties to even — the IEEE-754
round-to-nearest-even rule at integer granularity. -/
def roundHalfEven (a b : Nat) : Nat :=
  if 2 * (a % b) < b then a / b
  else if b < 2 * (a % b) then a / b + 1
  else if (a / b) % 2 = 0 then a / b else a / b + 1

/-- The exact value of the Go conversion `float64(n)` for `0 ≤ n < 2^63`:
integers below `2^53` are exact; larger ones are rounded to a 53-bit
significand, nearest-even (granularity `2^(bitlength − 53)`). -/
def floatOfNat (n : Nat) : Nat :=
  if n < 2 ^ 53 then n
  else
    let k := Nat.log2 n + 1 - 53
    roundHalfEven n (2 ^ k) * 2 ^ k

/-- `EncodedLen(n) = int(math.Ceil(float64(n) * 16.0 / 13.0))`, with the
binary64 arithmetic modelled exactly by integers: `float64(n)` rounds `n`
to 53 significant bits (`floatOfNat`); multiplying by `16.0 = 2^4` only
shifts the exponent, so it is exact (no overflow below `2^1024`); dividing
by `13.0` (exact) rounds the true quotient `x/13` to the nearest binary64
value, i.e. nearest-even at granularity `2^(a−52)` where
`a = ⌊log₂(x/13)⌋`; `math.Ceil` and the `int` conversion are exact in this
range.  The binade exponent `a` of the true quotient equals
`Nat.log2 (x / 13)` because `x/13 ≥ 1` and its floor lies in the same
binade. -/
def EncodedLen (n : Nat) : Nat :=
  if n = 0 then 0
  else
    let x := 16 * floatOfNat n
    let a := Nat.log2 (x / 13)
    if a ≤ 52 then
      (roundHalfEven (x * 2 ^ (52 - a)) 13 + (2 ^ (52 - a) - 1)) / 2 ^ (52 - a)
    else
      roundHalfEven x (13 * 2 ^ (a - 52)) * 2 ^ (a - 52)

/-- Modelled from the spec: `EncodedLen` is specified (and documented in
the source: "an upper bound on the length … at worst, base91 encodes 13
bits into 16 bits") to be the exact ceiling `⌈16·n/13⌉`; this definition
follows the spec's words, to be compared with the float64 computation
`EncodedLen` above. -/
def ceilEncodedLen (n : Nat) : Nat := (16 * n + 12) / 13

/-- The decoder's inner byte-draining `do/while` loop:
emit `byte(queue)`, shift by 8, repeat while more than 7 bits remain. -/
def drainQueue (queue numBits : Nat) (out : List Nat) : Nat × Nat × List Nat :=
  if _h : numBits - 8 > 7 then
    drainQueue (queue >>> 8) (numBits - 8) (out ++ [queue % 256])
  else
    (queue >>> 8, numBits - 8, out ++ [queue % 256])
termination_by numBits
decreasing_by omega

/-- The `Decode` input loop.  `Sum.inl` carries the final loop state
`(queue, numBits, v, out)`; `Sum.inr (out, i)` models the early
`return n, CorruptInputError(i)`. -/
def decodeLoop (e : Encoding) :
    List Nat → Nat → Nat → Nat → Option Nat → List Nat →
    (Nat × Nat × Option Nat × List Nat) ⊕ (List Nat × Nat)
  | [], _, queue, numBits, v, out => Sum.inl (queue, numBits, v, out)
  | c :: src, i, queue, numBits, v, out =>
    if valueOf e c = 255 then
      Sum.inr (out, i)
    else
      match v with
      | none => decodeLoop e src (i + 1) queue numBits (some (valueOf e c)) out
      | some w =>
        let v1 := w + (valueOf e c) * 91
        let queue1 := queue ||| (v1 <<< numBits)
        let numBits1 := numBits + (if v1 &&& 8191 > 88 then 13 else 14)
        match drainQueue queue1 numBits1 out with
        | (queue2, numBits2, out2) => decodeLoop e src (i + 1) queue2 numBits2 none out2

/-- `Decode` starting from a given loop state: run the loop, then flush a
pending unpaired digit (`dst[n] = byte(queue | uint(v)<<numBits)`). -/
def decodeFinish (e : Encoding) (src : List Nat) (i queue numBits : Nat)
    (v : Option Nat) (out : List Nat) : List Nat × Option Nat :=
  match decodeLoop e src i queue numBits v out with
  | Sum.inr (o, p) => (o, some p)
  | Sum.inl (q, nb, vv, o) =>
    match vv with
    | none => (o, none)
    | some w => (o ++ [(q ||| (w <<< nb)) % 256], none)

/-- `Decode(dst, src)`: the bytes written and the optional corrupt-input
position. -/
def Decode (e : Encoding) (src : List Nat) : List Nat × Option Nat :=
  decodeFinish e src 0 0 0 none []

/-- `DecodedLen(n) = n`. -/
def DecodedLen (n : Nat) : Nat := n

/-- The bytes produced by the decode loop on a symbol sequence, without the
final unpaired-digit flush: "all bytes successfully decoded so far". -/
def decodedPrefix (e : Encoding) (src : List Nat) : List Nat :=
  match decodeLoop e src 0 0 0 none [] with
  | Sum.inl (_, _, _, o) => o
  | Sum.inr (o, _) => o

/-- Little-endian byte expansion: the low `k` bytes of `x`. -/
def lowBytes : Nat → Nat → List Nat
  | _, 0 => []
  | x, k + 1 => x % 256 :: lowBytes (x / 256) k

/-- A 91-byte alphabet definition with a duplicate: the standard alphabet
with its last symbol replaced by a second copy of `'A'` (65). -/
def dupAlphabet : List Nat := encodeStd.set 90 65

/-- The encoding that `NewEncoding` builds from `dupAlphabet`. -/
def dupEncoding : Encoding :=
  (NewEncoding dupAlphabet).getD { encode := [], decodeMap := [] }

/-! ### Arithmetic bridges for the bit operations -/

/-- Merging disjoint bit ranges: `a ||| (b <<< n)` is plain addition when
`a` fits in `n` bits. -/
theorem lor_shiftLeft_eq {a : Nat} (b : Nat) {n : Nat} (h : a < 2 ^ n) :
    a ||| (b <<< n) = a + b * 2 ^ n := by
  apply Nat.eq_of_testBit_eq
  intro j
  rw [Nat.testBit_lor, Nat.testBit_shiftLeft,
    show a + b * 2 ^ n = 2 ^ n * b + a by ring,
    Nat.testBit_mul_pow_two_add b h j]
  rcases lt_or_ge j n with hj | hj
  · have hd : decide (j ≥ n) = false := by simp; omega
    simp [hj, hd]
  · have ha : a.testBit j = false :=
      Nat.testBit_lt_two_pow
        (lt_of_lt_of_le h (Nat.pow_le_pow_right (by norm_num) hj))
    have hd : decide (j ≥ n) = true := by simp [hj]
    have hj' : ¬ (j < n) := by omega
    simp [hj', hd, ha]

theorem and_8191_eq (a : Nat) : a &&& 8191 = a % 8192 := by
  have h1 : (8191 : Nat) = 2 ^ 13 - 1 := by norm_num
  have h2 : (8192 : Nat) = 2 ^ 13 := by norm_num
  rw [h1, h2, Nat.and_pow_two_sub_one_eq_mod]

theorem and_16383_eq (a : Nat) : a &&& 16383 = a % 16384 := by
  have h1 : (16383 : Nat) = 2 ^ 14 - 1 := by norm_num
  have h2 : (16384 : Nat) = 2 ^ 14 := by norm_num
  rw [h1, h2, Nat.and_pow_two_sub_one_eq_mod]

/-! ### Properties of `lowBytes` -/

theorem lowBytes_snoc :
    ∀ (k x b : Nat), x < 2 ^ (8 * k) → b < 256 →
      lowBytes (x + b * 2 ^ (8 * k)) (k + 1) = lowBytes x k ++ [b]
  | 0, x, b, hx, hb => by
    have hx0 : x = 0 := by omega
    simp [hx0, lowBytes, Nat.mod_eq_of_lt hb, Nat.div_eq_of_lt hb]
  | k + 1, x, b, hx, hb => by
    have hsplit : (2 : Nat) ^ (8 * (k + 1)) = 2 ^ (8 * k) * 256 := by
      rw [show 8 * (k + 1) = 8 * k + 8 by ring, pow_add]; norm_num
    have hmod : (x + b * 2 ^ (8 * (k + 1))) % 256 = x % 256 := by
      rw [hsplit, show b * (2 ^ (8 * k) * 256) = b * 2 ^ (8 * k) * 256 by ring,
        Nat.add_mul_mod_self_right]
    have hdiv : (x + b * 2 ^ (8 * (k + 1))) / 256 = x / 256 + b * 2 ^ (8 * k) := by
      rw [hsplit, show b * (2 ^ (8 * k) * 256) = b * 2 ^ (8 * k) * 256 by ring,
        Nat.add_mul_div_right _ _ (by norm_num : (0 : Nat) < 256)]
    have hx' : x / 256 < 2 ^ (8 * k) := by
      rw [hsplit] at hx
      exact Nat.div_lt_of_lt_mul (by omega)
    have hL : lowBytes (x + b * 2 ^ (8 * (k + 1))) (k + 1 + 1) =
        (x + b * 2 ^ (8 * (k + 1))) % 256 ::
          lowBytes ((x + b * 2 ^ (8 * (k + 1))) / 256) (k + 1) := rfl
    have hR : lowBytes x (k + 1) = x % 256 :: lowBytes (x / 256) k := rfl
    rw [hL, hmod, hdiv, lowBytes_snoc k (x / 256) b hx' hb, hR]
    simp

theorem lowBytes_congr_mod :
    ∀ (k x y : Nat), x % 2 ^ (8 * k) = y % 2 ^ (8 * k) → lowBytes x k = lowBytes y k
  | 0, _, _, _ => rfl
  | k + 1, x, y, h => by
    have hsplit : (2 : Nat) ^ (8 * (k + 1)) = 256 * 2 ^ (8 * k) := by
      rw [show 8 * (k + 1) = 8 * k + 8 by ring, pow_add]; ring
    have hdvd : (256 : Nat) ∣ 2 ^ (8 * (k + 1)) := ⟨2 ^ (8 * k), hsplit⟩
    have h256 : x % 256 = y % 256 := by
      rw [← Nat.mod_mod_of_dvd x hdvd, ← Nat.mod_mod_of_dvd y hdvd, h]
    have hdiv : x / 256 % 2 ^ (8 * k) = y / 256 % 2 ^ (8 * k) := by
      rw [← Nat.mod_mul_right_div_self x 256 (2 ^ (8 * k)),
        ← Nat.mod_mul_right_div_self y 256 (2 ^ (8 * k)), ← hsplit, h]
    simp only [lowBytes, h256, lowBytes_congr_mod k _ _ hdiv]

theorem lowBytes_split :
    ∀ (s t x : Nat), lowBytes x (s + t) = lowBytes x s ++ lowBytes (x / 2 ^ (8 * s)) t
  | 0, t, x => by simp [lowBytes]
  | s + 1, t, x => by
    have h1 : s + 1 + t = (s + t) + 1 := by ring
    have h2 : x / 256 / 2 ^ (8 * s) = x / 2 ^ (8 * (s + 1)) := by
      rw [Nat.div_div_eq_div_mul,
        show (256 : Nat) * 2 ^ (8 * s) = 2 ^ (8 * (s + 1)) by
          rw [show 8 * (s + 1) = 8 + 8 * s by ring, pow_add]; norm_num]
    simp only [h1, lowBytes, lowBytes_split s t (x / 256), h2, List.cons_append]

/-! ### The drain loop -/

/-- Characterisation of the decoder's `do/while` drain loop: with at least
8 pending bits it emits the low `numBits / 8` bytes and keeps
`numBits % 8` bits. -/
theorem drainQueue_eq :
    ∀ (numBits queue : Nat) (out : List Nat), 8 ≤ numBits →
      drainQueue queue numBits out =
        (queue >>> (8 * (numBits / 8)), numBits % 8,
         out ++ lowBytes queue (numBits / 8)) := by
  intro numBits
  induction numBits using Nat.strong_induction_on with
  | _ nb ih =>
    intro queue out h8
    rw [drainQueue]
    by_cases hc : nb - 8 > 7
    · rw [dif_pos hc]
      rw [ih (nb - 8) (by omega) (queue >>> 8) (out ++ [queue % 256]) (by omega)]
      have e2 : (nb - 8) % 8 = nb % 8 := by omega
      have e3 : nb / 8 = (nb - 8) / 8 + 1 := by omega
      have hs : queue >>> 8 >>> (8 * ((nb - 8) / 8)) = queue >>> (8 * (nb / 8)) := by
        rw [← Nat.shiftRight_add]
        congr 1
        omega
      have hq : queue >>> 8 = queue / 256 := by
        rw [Nat.shiftRight_eq_div_pow]
      have hb : out ++ [queue % 256] ++ lowBytes (queue >>> 8) ((nb - 8) / 8)
          = out ++ lowBytes queue (nb / 8) := by
        rw [List.append_assoc]
        congr 1
        rw [e3, hq]
        simp [lowBytes]
      rw [hs, e2, hb]
    · rw [dif_neg hc]
      have e1 : nb / 8 = 1 := by omega
      have e2 : nb % 8 = nb - 8 := by omega
      rw [e1, e2]
      simp [lowBytes]

/-! ### Structural lemmas about the encode and decode loops -/

theorem encodeLoop_acc (e : Encoding) :
    ∀ (src : List Nat) (q nb : Nat) (out : List Nat),
      encodeLoop e src q nb out =
        ((encodeLoop e src q nb []).1, (encodeLoop e src q nb []).2.1,
         out ++ (encodeLoop e src q nb []).2.2)
  | [], q, nb, out => by simp [encodeLoop]
  | b :: src, q, nb, out => by
    rcases hstep : encodeStep e q nb b with ⟨q1, n1, em⟩
    simp only [encodeLoop, hstep]
    rw [encodeLoop_acc e src q1 n1 (out ++ em), encodeLoop_acc e src q1 n1 ([] ++ em)]
    simp

theorem encodeFrom_cons (e : Encoding) (b : Nat) (src : List Nat) (q nb : Nat) :
    encodeFrom e (b :: src) q nb =
      (encodeStep e q nb b).2.2 ++
        encodeFrom e src (encodeStep e q nb b).1 (encodeStep e q nb b).2.1 := by
  rcases hstep : encodeStep e q nb b with ⟨q1, n1, em⟩
  simp only [encodeFrom, encodeLoop, hstep]
  rw [encodeLoop_acc e src q1 n1 ([] ++ em)]
  rcases hrest : encodeLoop e src q1 n1 [] with ⟨q2, n2, out2⟩
  simp

theorem encodeFrom_nil (e : Encoding) (q nb : Nat) :
    encodeFrom e [] q nb = encodeFlushSyms e q nb := by
  simp [encodeFrom, encodeLoop]

theorem decodeLoop_append (e : Encoding) :
    ∀ (s1 s2 : List Nat) (i q nb : Nat) (v : Option Nat) (out : List Nat),
      decodeLoop e (s1 ++ s2) i q nb v out =
        match decodeLoop e s1 i q nb v out with
        | Sum.inr r => Sum.inr r
        | Sum.inl (q', nb', v', o') => decodeLoop e s2 (i + s1.length) q' nb' v' o'
  | [], s2, i, q, nb, v, out => by simp [decodeLoop]
  | c :: s1, s2, i, q, nb, v, out => by
    have hidx : i + 1 + s1.length = i + (c :: s1).length := by
      simp
      omega
    rcases v with _ | w
    · by_cases hc : valueOf e c = 255
      · simp [decodeLoop, hc]
      · simp only [List.cons_append, decodeLoop, if_neg hc, List.append_eq]
        rw [decodeLoop_append e s1 s2 (i + 1) q nb (some (valueOf e c)) out, hidx]
    · by_cases hc : valueOf e c = 255
      · simp [decodeLoop, hc]
      · simp only [List.cons_append, decodeLoop, if_neg hc, List.append_eq]
        rcases hdr : drainQueue (q ||| ((w + valueOf e c * 91) <<< nb))
            (nb + if (w + valueOf e c * 91) &&& 8191 > 88 then 13 else 14) out
          with ⟨q2, nb2, out2⟩
        simp only [hdr]
        rw [decodeLoop_append e s1 s2 (i + 1) q2 nb2 none out2, hidx]

theorem decodeFinish_append (e : Encoding) (s1 s2 : List Nat) (i q nb : Nat)
    (v : Option Nat) (out : List Nat) :
    decodeFinish e (s1 ++ s2) i q nb v out =
      match decodeLoop e s1 i q nb v out with
      | Sum.inr (o, p) => (o, some p)
      | Sum.inl (q', nb', v', o') => decodeFinish e s2 (i + s1.length) q' nb' v' o' := by
  simp only [decodeFinish, decodeLoop_append e s1 s2 i q nb v out]
  rcases decodeLoop e s1 i q nb v out with ⟨q', nb', v', o'⟩ | ⟨o, p⟩ <;> simp

/-- On a run of symbols that are all in the alphabet, the decode loop never
returns the corrupt-input result. -/
theorem decodeLoop_valid (e : Encoding) :
    ∀ (s : List Nat) (i q nb : Nat) (v : Option Nat) (out : List Nat),
      (∀ c ∈ s, valueOf e c ≠ 255) →
      ∃ q' nb' v' o', decodeLoop e s i q nb v out = Sum.inl (q', nb', v', o')
  | [], i, q, nb, v, out, _ => ⟨q, nb, v, out, rfl⟩
  | c :: s, i, q, nb, v, out, hval => by
    have hc : valueOf e c ≠ 255 := hval c (by simp)
    have hrest : ∀ c' ∈ s, valueOf e c' ≠ 255 :=
      fun c' hc' => hval c' (by simp [hc'])
    rcases v with _ | w
    · simp only [decodeLoop, if_neg hc]
      exact decodeLoop_valid e s (i + 1) q nb _ out hrest
    · simp only [decodeLoop, if_neg hc]
      rcases hdr : drainQueue (q ||| ((w + valueOf e c * 91) <<< nb))
          (nb + if (w + valueOf e c * 91) &&& 8191 > 88 then 13 else 14) out
        with ⟨q2, nb2, out2⟩
      simp only [hdr]
      exact decodeLoop_valid e s (i + 1) q2 nb2 none out2 hrest

/-! ### The decode-map construction -/

theorem getD_set_ne (m : List Nat) {a x : Nat} (v d : Nat) (h : a ≠ x) :
    (m.set a v).getD x d = m.getD x d := by
  simp [List.getD_eq_getElem?_getD, List.getElem?_set_ne h]

theorem getD_set_self (m : List Nat) {a : Nat} (v d : Nat) (h : a < m.length) :
    (m.set a v).getD a d = v := by
  simp [List.getD_eq_getElem?_getD, List.getElem?_set_self h]

theorem setSymbols_length :
    ∀ (l : List Nat) (s : Nat) (m : List Nat), (setSymbols l s m).length = m.length
  | [], _, _ => rfl
  | c :: l, s, m => by
    rw [setSymbols, setSymbols_length l (s + 1) (m.set c s), List.length_set]

theorem setSymbols_getD_notMem :
    ∀ (l : List Nat) (s : Nat) (m : List Nat) (x d : Nat), x ∉ l →
      (setSymbols l s m).getD x d = m.getD x d
  | [], _, _, _, _, _ => rfl
  | c :: l, s, m, x, d, hx => by
    have hcx : c ≠ x := fun h => hx (h ▸ List.mem_cons_self c l)
    rw [setSymbols,
      setSymbols_getD_notMem l (s + 1) (m.set c s) x d
        (fun h => hx (List.mem_cons_of_mem _ h)),
      getD_set_ne m s d hcx]

theorem setSymbols_getD_idx :
    ∀ (l : List Nat) (s : Nat) (m : List Nat) (j : Nat), l.Nodup →
      j < l.length → l.getD j 0 < m.length →
      (setSymbols l s m).getD (l.getD j 0) 255 = s + j
  | [], _, _, j, _, hj, _ => absurd hj (by simp)
  | c :: l, s, m, 0, hnd, _, hlt => by
    have hcl : c ∉ l := (List.nodup_cons.mp hnd).1
    have hc : (c :: l).getD 0 0 = c := rfl
    rw [hc] at hlt ⊢
    rw [setSymbols, setSymbols_getD_notMem l (s + 1) (m.set c s) c 255 hcl,
      getD_set_self m s 255 hlt]
    omega
  | c :: l, s, m, j + 1, hnd, hj, hlt => by
    have hc : (c :: l).getD (j + 1) 0 = l.getD j 0 := rfl
    rw [hc] at hlt ⊢
    rw [setSymbols,
      setSymbols_getD_idx l (s + 1) (m.set c s) j (List.nodup_cons.mp hnd).2
        (by simpa using hj) (by simpa [List.length_set] using hlt)]
    omega

theorem setSymbols_mem :
    ∀ (l : List Nat) (s : Nat) (m : List Nat) (y : Nat), y ∈ setSymbols l s m →
      y ∈ m ∨ (s ≤ y ∧ y < s + l.length)
  | [], _, _, _, h => Or.inl h
  | c :: l, s, m, y, h => by
    rcases setSymbols_mem l (s + 1) (m.set c s) y h with h1 | h2
    · rcases List.mem_or_eq_of_mem_set h1 with h3 | h4
      · exact Or.inl h3
      · right
        rw [h4]
        exact ⟨Nat.le_refl s, by simp⟩
    · right
      simp only [List.length_cons]
      omega

/-- Inversion of a successful `NewEncoding`. -/
theorem newEncoding_inv {encoder : List Nat} {E : Encoding}
    (hE : NewEncoding encoder = some E) :
    encoder.length = 91 ∧ E = ⟨encoder, buildDecodeMap encoder⟩ := by
  unfold NewEncoding at hE
  by_cases h1 : encoder.length ≠ 91
  · rw [if_pos h1] at hE
    cases hE
  · rw [if_neg h1] at hE
    by_cases h2 : encoder.any (fun c => c == 10 || c == 13) = true
    · rw [if_pos h2] at hE
      cases hE
    · rw [if_neg h2] at hE
      exact ⟨by omega, (Option.some_inj.mp hE).symm⟩

theorem buildDecodeMap_getD_lt (encoder : List Nat) (hlen : encoder.length ≤ 256)
    (c : Nat) : (buildDecodeMap encoder).getD c 255 < 256 := by
  rcases h : (buildDecodeMap encoder)[c]? with _ | y
  · rw [List.getD_eq_getElem?_getD, h]
    norm_num
  · have hy : y ∈ buildDecodeMap encoder := List.getElem?_mem h
    rw [List.getD_eq_getElem?_getD, h]
    rcases setSymbols_mem encoder 0 _ y hy with h1 | h2
    · have h255 := List.eq_of_mem_replicate h1
      simp [h255]
    · simp only [Option.getD_some]
      omega

theorem valueOf_lt_256 {encoder : List Nat} {E : Encoding}
    (hE : NewEncoding encoder = some E) (c : Nat) : valueOf E c < 256 := by
  rcases newEncoding_inv hE with ⟨hlen, hEeq⟩
  rw [hEeq]
  exact buildDecodeMap_getD_lt encoder (by omega) c

/-! ### Claim C5: construction validation -/

/-- C5: for every alphabet definition whose length is not exactly 91, or that
contains a carriage-return (13) or line-feed (10) byte, `NewEncoding` fails
(Go panic, modelled as `none`) and no table is produced. -/
theorem c5_invalid_alphabet_rejected (encoder : List Nat)
    (h : encoder.length ≠ 91 ∨ ∃ c ∈ encoder, c = 10 ∨ c = 13) :
    NewEncoding encoder = none := by
  rcases h with h | ⟨c, hc, hv⟩
  · simp [NewEncoding, h]
  · rw [NewEncoding]
    by_cases hl : encoder.length ≠ 91
    · rw [if_pos hl]
    · rw [if_neg hl]
      have hany : encoder.any (fun c => c == 10 || c == 13) = true := by
        apply List.any_eq_true.mpr
        refine ⟨c, hc, ?_⟩
        rcases hv with h10 | h13
        · simp [h10]
        · simp [h13]
      rw [if_pos hany]

/-- Witness for C5: the 92-byte all-zero definition is rejected, and so is a
91-byte definition containing a line feed. -/
theorem c5_invalid_alphabet_rejected_witness :
    NewEncoding (List.replicate 92 65) = none ∧
    NewEncoding (10 :: List.replicate 90 65) = none :=
  ⟨c5_invalid_alphabet_rejected _ (Or.inl (by decide)),
   c5_invalid_alphabet_rejected _ (Or.inr ⟨10, by decide, Or.inl rfl⟩)⟩

/-! ### Claim C6: alphabet bijection -/

/-- C6: for every valid alphabet definition (91 distinct byte values, no CR
or LF), construction succeeds and the resulting table satisfies
`valueOf[symbols[i]] = i` for all `i < 91`, while every byte value not among
the 91 symbols maps to the sentinel 255.  (Instantiated for the standard
alphabet by the witness.) -/
theorem c6_alphabet_bijection (encoder : List Nat)
    (hlen : encoder.length = 91) (hnd : encoder.Nodup)
    (hbyte : ∀ c ∈ encoder, c < 256)
    (hcrlf : ∀ c ∈ encoder, c ≠ 10 ∧ c ≠ 13) :
    NewEncoding encoder = some ⟨encoder, buildDecodeMap encoder⟩ ∧
    (∀ i, i < 91 →
      valueOf ⟨encoder, buildDecodeMap encoder⟩ (encoder.getD i 0) = i) ∧
    (∀ x, x ∉ encoder → valueOf ⟨encoder, buildDecodeMap encoder⟩ x = 255) := by
  refine ⟨?_, ?_, ?_⟩
  · rw [NewEncoding, if_neg (by omega)]
    have hany : encoder.any (fun c => c == 10 || c == 13) = false := by
      apply List.any_eq_false.mpr
      intro c hc
      rcases hcrlf c hc with ⟨h10, h13⟩
      simp [h10, h13]
    rw [hany]
    simp
  · intro i hi
    have hi' : i < encoder.length := by omega
    have hmem : encoder.getD i 0 ∈ encoder := by
      rw [List.getD_eq_getElem encoder 0 hi']
      exact List.getElem_mem hi'
    have hsize : encoder.getD i 0 < (List.replicate 256 255).length := by
      rw [List.length_replicate]
      exact hbyte _ hmem
    have hidx := setSymbols_getD_idx encoder 0 (List.replicate 256 255) i hnd hi' hsize
    show (setSymbols encoder 0 (List.replicate 256 255)).getD (encoder.getD i 0) 255 = i
    rw [hidx]
    omega
  · intro x hx
    have h1 := setSymbols_getD_notMem encoder 0 (List.replicate 256 255) x 255 hx
    have h2 : (List.replicate 256 255).getD x 255 = 255 := by
      rcases Nat.lt_or_ge x 256 with hlt | hge
      · rw [List.getD_eq_getElem?_getD, List.getElem?_replicate, if_pos hlt]
        rfl
      · rw [List.getD_eq_getElem?_getD,
          List.getElem?_eq_none (by rw [List.length_replicate]; omega)]
        rfl
    show (setSymbols encoder 0 (List.replicate 256 255)).getD x 255 = 255
    rw [h1]
    exact h2

set_option maxRecDepth 40000 in
set_option maxHeartbeats 1000000 in
/-- Witness for C6: applied to the standard alphabet; symbol 0 (`'A'` = 65)
decodes back to 0. -/
theorem c6_alphabet_bijection_witness :
    valueOf ⟨encodeStd, buildDecodeMap encodeStd⟩ (encodeStd.getD 0 0) = 0 :=
  (c6_alphabet_bijection encodeStd (by decide) (by decide) (by decide)
    (by decide)).2.1 0 (by decide)

/-! ### Claim C9: duplicate symbols are not rejected -/

set_option maxRecDepth 40000 in
set_option maxHeartbeats 1000000 in
/-- C9: `NewEncoding` does not reject duplicate symbols: `dupAlphabet` is a
91-byte definition with a duplicated symbol (65 at indices 0 and 90) and no
CR/LF, yet construction succeeds, the duplicated byte maps to only its last
index (90, not 0), and code 0 is unreachable: no entry of the decode map
is 0, so `valueOf` is not a bijective inverse of the symbol table. -/
theorem c9_duplicate_not_rejected :
    dupAlphabet.length = 91 ∧
    ¬ dupAlphabet.Nodup ∧
    (∀ c ∈ dupAlphabet, c ≠ 10 ∧ c ≠ 13) ∧
    NewEncoding dupAlphabet = some dupEncoding ∧
    dupEncoding.encode.getD 0 0 = 65 ∧
    dupEncoding.encode.getD 90 0 = 65 ∧
    valueOf dupEncoding 65 = 90 ∧
    valueOf dupEncoding 65 ≠ 0 ∧
    dupEncoding.decodeMap.all (fun y => y != 0) = true := by
  decide

/-! ### Bit-count invariants -/

theorem encodeStep_numBits_le (e : Encoding) (q nb b : Nat) (h : nb ≤ 13) :
    (encodeStep e q nb b).2.1 ≤ 13 := by
  simp only [encodeStep]
  split
  · split <;> (dsimp only; omega)
  · dsimp only
    rename_i hcond
    omega

theorem encodeLoop_numBits_le (e : Encoding) :
    ∀ (src : List Nat) (q nb : Nat) (out : List Nat), nb ≤ 13 →
      (encodeLoop e src q nb out).2.1 ≤ 13
  | [], q, nb, out, h => by simpa [encodeLoop] using h
  | b :: src, q, nb, out, h => by
    rcases hstep : encodeStep e q nb b with ⟨q1, n1, em⟩
    have hn1 : n1 ≤ 13 := by
      have := encodeStep_numBits_le e q nb b h
      rw [hstep] at this
      exact this
    simp only [encodeLoop, hstep]
    exact encodeLoop_numBits_le e src q1 n1 (out ++ em) hn1

theorem decodeLoop_numBits_le (e : Encoding) :
    ∀ (s : List Nat) (i q nb : Nat) (v : Option Nat) (out : List Nat)
      (q' nb' : Nat) (v' : Option Nat) (o' : List Nat), nb ≤ 7 →
      decodeLoop e s i q nb v out = Sum.inl (q', nb', v', o') → nb' ≤ 7
  | [], i, q, nb, v, out, q', nb', v', o', h, hEq => by
    simp only [decodeLoop, Sum.inl.injEq, Prod.mk.injEq] at hEq
    omega
  | c :: s, i, q, nb, v, out, q', nb', v', o', h, hEq => by
    rcases v with _ | w
    · simp only [decodeLoop] at hEq
      by_cases hc : valueOf e c = 255
      · rw [if_pos hc] at hEq
        cases hEq
      · rw [if_neg hc] at hEq
        exact decodeLoop_numBits_le e s (i + 1) q nb _ out q' nb' v' o' h hEq
    · simp only [decodeLoop] at hEq
      by_cases hc : valueOf e c = 255
      · rw [if_pos hc] at hEq
        cases hEq
      · rw [if_neg hc] at hEq
        rcases hdr : drainQueue (q ||| ((w + valueOf e c * 91) <<< nb))
            (nb + if (w + valueOf e c * 91) &&& 8191 > 88 then 13 else 14) out
          with ⟨q2, nb2, o2⟩
        rw [hdr] at hEq
        have h8 : 8 ≤ nb + if (w + valueOf e c * 91) &&& 8191 > 88 then 13 else 14 := by
          split <;> omega
        have hdr2 := drainQueue_eq
          (nb + if (w + valueOf e c * 91) &&& 8191 > 88 then 13 else 14)
          (q ||| ((w + valueOf e c * 91) <<< nb)) out h8
        rw [hdr] at hdr2
        have hnb2 : nb2 = (nb + if (w + valueOf e c * 91) &&& 8191 > 88 then 13 else 14) % 8 := by
          have := congrArg (fun t => t.2.1) hdr2
          simpa using this
        refine decodeLoop_numBits_le e s (i + 1) q2 nb2 none o2 q' nb' v' o' ?_ ?_
        · omega
        · exact hEq

/-! ### Claim C7: the extraction step -/

/-- C7: whenever the pending bit count exceeds 13 (after merging a byte the
count is `numBits + 8`), the encoder takes the low 13 bits `v` of the queue;
if `v > 88` it consumes 13 bits, otherwise it widens `v` to the low 14 bits
and consumes 14; in both cases it emits `symbols[v % 91]` then
`symbols[v / 91]`.  (`&&& 8191`, `&&& 16383`, `>>> 13`, `>>> 14` are written
as `% 8192`, `% 16384`, `/ 2^13`, `/ 2^14`.) -/
theorem c7_extraction_step (e : Encoding) (queue numBits b : Nat)
    (h : 13 < numBits + 8) :
    (88 < (queue ||| (b <<< numBits)) % 8192 →
      encodeStep e queue numBits b =
        ((queue ||| (b <<< numBits)) / 2 ^ 13, numBits + 8 - 13,
         [encodeSym e ((queue ||| (b <<< numBits)) % 8192 % 91),
          encodeSym e ((queue ||| (b <<< numBits)) % 8192 / 91)])) ∧
    ((queue ||| (b <<< numBits)) % 8192 ≤ 88 →
      encodeStep e queue numBits b =
        ((queue ||| (b <<< numBits)) / 2 ^ 14, numBits + 8 - 14,
         [encodeSym e ((queue ||| (b <<< numBits)) % 16384 % 91),
          encodeSym e ((queue ||| (b <<< numBits)) % 16384 / 91)])) := by
  constructor <;> intro hv <;>
    simp only [encodeStep, and_8191_eq, and_16383_eq, Nat.shiftRight_eq_div_pow,
      if_pos h]
  · rw [if_pos hv]
  · rw [if_neg (by omega)]

/-- Witness for C7 at `queue = 0`, `numBits = 6`, `b = 255` (the low-13-bit
value 8128 exceeds 88, so 13 bits are consumed). -/
theorem c7_extraction_step_witness :
    encodeStep StdEncoding 0 6 255 =
      ((0 ||| (255 <<< 6)) / 2 ^ 13, 6 + 8 - 13,
       [encodeSym StdEncoding ((0 ||| (255 <<< 6)) % 8192 % 91),
        encodeSym StdEncoding ((0 ||| (255 <<< 6)) % 8192 / 91)]) :=
  (c7_extraction_step StdEncoding 0 6 255 (by decide)).1 (by decide)

/-! ### Claim C8: the bit count stays within [0, 23] -/

/-- C8: in `Encode`, the pending-bit count is at most 13 at the top of every
loop iteration (hence ≤ 23 at its transient peak `numBits + 8` inside the
iteration, before extraction); in `Decode`, it is at most 7 at the top of
every loop iteration (hence ≤ 23 at its transient peak `numBits + 14`, from
which the drain loop only decreases it).  Both loops start at 0, so the
count stays within [0, 23] at every step of every call. -/
theorem c8_count_bounds (e : Encoding) :
    (∀ (src : List Nat) (q nb : Nat) (out : List Nat), nb ≤ 13 →
      (encodeLoop e src q nb out).2.1 ≤ 13 ∧ nb + 8 ≤ 23) ∧
    (∀ (s : List Nat) (i q nb : Nat) (v : Option Nat) (out : List Nat)
        (q' nb' : Nat) (v' : Option Nat) (o' : List Nat), nb ≤ 7 →
      decodeLoop e s i q nb v out = Sum.inl (q', nb', v', o') →
      nb' ≤ 7 ∧ nb + 14 ≤ 23) :=
  ⟨fun src q nb out h => ⟨encodeLoop_numBits_le e src q nb out h, by omega⟩,
   fun s i q nb v out q' nb' v' o' h hEq =>
     ⟨decodeLoop_numBits_le e s i q nb v out q' nb' v' o' h hEq, by omega⟩⟩

/-- Witness for C8: the encode bound applied to a one-byte input from the
initial state, and the decode bound on the empty symbol list. -/
theorem c8_count_bounds_witness :
    ((encodeLoop StdEncoding [7] 0 0 []).2.1 ≤ 13 ∧ 0 + 8 ≤ 23) ∧
    (0 ≤ 7 ∧ 0 + 14 ≤ 23) :=
  ⟨(c8_count_bounds StdEncoding).1 [7] 0 0 [] (by decide),
   ⟨by decide,
    ((c8_count_bounds StdEncoding).2 [] 0 0 0 none [] 0 0 none [] (by decide)
      rfl).2⟩⟩

/-! ### Claim C4: decoded length bound -/

theorem lowBytes_length : ∀ (x k : Nat), (lowBytes x k).length = k
  | _, 0 => rfl
  | x, k + 1 => by
    simp only [lowBytes, List.length_cons, lowBytes_length (x / 256) k]

/-- Bits-accounting invariant of the decode loop, success case: each pair of
symbols contributes at most 14 bits, a pending digit counts 7. -/
theorem decodeLoop_len_inl (e : Encoding) :
    ∀ (s : List Nat) (i q nb : Nat) (v : Option Nat) (out : List Nat)
      (q' nb' : Nat) (v' : Option Nat) (o' : List Nat),
      decodeLoop e s i q nb v out = Sum.inl (q', nb', v', o') →
      8 * o'.length + nb' + (if v'.isSome then 7 else 0) ≤
        8 * out.length + nb + (if v.isSome then 7 else 0) + 7 * s.length
  | [], i, q, nb, v, out, q', nb', v', o', hEq => by
    simp only [decodeLoop, Sum.inl.injEq, Prod.mk.injEq] at hEq
    obtain ⟨-, h2, h3, h4⟩ := hEq
    subst h2
    subst h3
    subst h4
    simp
  | c :: s, i, q, nb, v, out, q', nb', v', o', hEq => by
    rcases v with _ | w
    · simp only [decodeLoop] at hEq
      by_cases hc : valueOf e c = 255
      · rw [if_pos hc] at hEq
        cases hEq
      · rw [if_neg hc] at hEq
        have ih := decodeLoop_len_inl e s (i + 1) q nb (some (valueOf e c)) out
          q' nb' v' o' hEq
        simp at ih ⊢
        omega
    · simp only [decodeLoop] at hEq
      by_cases hc : valueOf e c = 255
      · rw [if_pos hc] at hEq
        cases hEq
      · rw [if_neg hc] at hEq
        rcases hdr : drainQueue (q ||| ((w + valueOf e c * 91) <<< nb))
            (nb + if (w + valueOf e c * 91) &&& 8191 > 88 then 13 else 14) out
          with ⟨q2, nb2, o2⟩
        rw [hdr] at hEq
        have h8 : 8 ≤ nb + if (w + valueOf e c * 91) &&& 8191 > 88 then 13 else 14 := by
          split <;> omega
        have hdr2 := drainQueue_eq
          (nb + if (w + valueOf e c * 91) &&& 8191 > 88 then 13 else 14)
          (q ||| ((w + valueOf e c * 91) <<< nb)) out h8
        rw [hdr] at hdr2
        have hnb2 : nb2 = (nb + if (w + valueOf e c * 91) &&& 8191 > 88 then 13 else 14) % 8 := by
          have := congrArg (fun t => t.2.1) hdr2
          simpa using this
        have ho2 : o2.length = out.length +
            (nb + if (w + valueOf e c * 91) &&& 8191 > 88 then 13 else 14) / 8 := by
          have := congrArg (fun t => t.2.2.length) hdr2
          simpa [lowBytes_length] using this
        have ih := decodeLoop_len_inl e s (i + 1) q2 nb2 none o2 q' nb' v' o' hEq
        simp at ih ⊢
        rcases Nat.lt_or_ge 88 ((w + valueOf e c * 91) &&& 8191) with h88 | h88
        · rw [if_pos h88] at hnb2 ho2
          omega
        · rw [if_neg (by omega)] at hnb2 ho2
          omega

/-- Bits-accounting invariant of the decode loop, corrupt-input case. -/
theorem decodeLoop_len_inr (e : Encoding) :
    ∀ (s : List Nat) (i q nb : Nat) (v : Option Nat) (out : List Nat)
      (o : List Nat) (p : Nat),
      decodeLoop e s i q nb v out = Sum.inr (o, p) →
      8 * o.length ≤ 8 * out.length + nb + (if v.isSome then 7 else 0) + 7 * s.length
  | [], i, q, nb, v, out, o, p, hEq => by
    simp only [decodeLoop] at hEq
    cases hEq
  | c :: s, i, q, nb, v, out, o, p, hEq => by
    rcases v with _ | w
    · simp only [decodeLoop] at hEq
      by_cases hc : valueOf e c = 255
      · rw [if_pos hc] at hEq
        simp only [Sum.inr.injEq, Prod.mk.injEq] at hEq
        obtain ⟨h1, -⟩ := hEq
        subst h1
        simp
        omega
      · rw [if_neg hc] at hEq
        have ih := decodeLoop_len_inr e s (i + 1) q nb (some (valueOf e c)) out o p hEq
        simp at ih ⊢
        omega
    · simp only [decodeLoop] at hEq
      by_cases hc : valueOf e c = 255
      · rw [if_pos hc] at hEq
        simp only [Sum.inr.injEq, Prod.mk.injEq] at hEq
        obtain ⟨h1, -⟩ := hEq
        subst h1
        simp
        omega
      · rw [if_neg hc] at hEq
        rcases hdr : drainQueue (q ||| ((w + valueOf e c * 91) <<< nb))
            (nb + if (w + valueOf e c * 91) &&& 8191 > 88 then 13 else 14) out
          with ⟨q2, nb2, o2⟩
        rw [hdr] at hEq
        have h8 : 8 ≤ nb + if (w + valueOf e c * 91) &&& 8191 > 88 then 13 else 14 := by
          split <;> omega
        have hdr2 := drainQueue_eq
          (nb + if (w + valueOf e c * 91) &&& 8191 > 88 then 13 else 14)
          (q ||| ((w + valueOf e c * 91) <<< nb)) out h8
        rw [hdr] at hdr2
        have hnb2 : nb2 = (nb + if (w + valueOf e c * 91) &&& 8191 > 88 then 13 else 14) % 8 := by
          have := congrArg (fun t => t.2.1) hdr2
          simpa using this
        have ho2 : o2.length = out.length +
            (nb + if (w + valueOf e c * 91) &&& 8191 > 88 then 13 else 14) / 8 := by
          have := congrArg (fun t => t.2.2.length) hdr2
          simpa [lowBytes_length] using this
        have ih := decodeLoop_len_inr e s (i + 1) q2 nb2 none o2 o p hEq
        simp at ih ⊢
        rcases Nat.lt_or_ge 88 ((w + valueOf e c * 91) &&& 8191) with h88 | h88
        · rw [if_pos h88] at hnb2 ho2
          omega
        · rw [if_neg (by omega)] at hnb2 ho2
          omega

/-- C4: for every symbol sequence, `Decode` writes at most
`DecodedLen (len src)` bytes, and `DecodedLen n = n`. -/
theorem c4_decoded_len_bound (e : Encoding) (src : List Nat) :
    (Decode e src).1.length ≤ DecodedLen src.length ∧
    DecodedLen src.length = src.length := by
  refine ⟨?_, rfl⟩
  rcases src with _ | ⟨c, rest⟩
  · simp [Decode, decodeFinish, decodeLoop, DecodedLen]
  · have hn : (c :: rest).length = rest.length + 1 := by simp
    rcases hX : decodeLoop e (c :: rest) 0 0 0 none [] with ⟨q, nb, vv, o⟩ | ⟨o, p⟩
    · have hlen := decodeLoop_len_inl e (c :: rest) 0 0 0 none [] q nb vv o hX
      rcases vv with _ | w
      · simp only [Decode, decodeFinish, hX]
        simp [DecodedLen] at hlen ⊢
        omega
      · simp only [Decode, decodeFinish, hX]
        simp [DecodedLen] at hlen ⊢
        omega
    · have hlen := decodeLoop_len_inr e (c :: rest) 0 0 0 none [] o p hX
      simp only [Decode, decodeFinish, hX]
      simp [DecodedLen] at hlen ⊢
      omega

/-! ### Claim C2: corrupt-input detection -/

/-- Decoding stops at the first symbol not in the alphabet, reporting its
position and returning the bytes the loop decoded from the symbols before
it. -/
theorem decode_stops_at_invalid (e : Encoding) (src : List Nat) (p : Nat)
    (hp : p < src.length)
    (hvalid : ∀ c ∈ src.take p, valueOf e c ≠ 255)
    (hbad : valueOf e (src.getD p 0) = 255) :
    Decode e src = (decodedPrefix e (src.take p), some p) := by
  obtain ⟨q', nb', v', o', hrun⟩ := decodeLoop_valid e (src.take p) 0 0 0 none [] hvalid
  have hlen : (src.take p).length = p := by
    rw [List.length_take]
    omega
  have hdrop : src.drop p = src.getD p 0 :: src.drop (p + 1) := by
    rw [List.getD_eq_getElem src 0 hp]
    exact List.drop_eq_getElem_cons hp
  have hsplit := decodeFinish_append e (src.take p) (src.drop p) 0 0 0 none []
  rw [List.take_append_drop, hrun] at hsplit
  have : Decode e src = decodeFinish e (src.drop p) (0 + (src.take p).length) q' nb' v' o' := hsplit
  rw [hlen, Nat.zero_add, hdrop] at this
  rw [this]
  have hfin : decodeFinish e (src.getD p 0 :: src.drop (p + 1)) p q' nb' v' o' =
      (o', some p) := by
    simp only [decodeFinish, decodeLoop, if_pos hbad]
  rw [hfin]
  simp only [decodedPrefix, hrun]

/-- C2: if the symbols at positions `[0, p)` are all in the alphabet and the
symbol at position `p` is not, `Decode` stops at `p`, reports position `p`
(`CorruptInputError(p)`), and returns exactly the bytes decoded by the loop
from the first `p` symbols; no output is produced from position `p` onward —
the result is the same whatever symbols follow position `p`. -/
theorem c2_corrupt_input (e : Encoding) (src : List Nat) (p : Nat)
    (hp : p < src.length)
    (hvalid : ∀ c ∈ src.take p, valueOf e c ≠ 255)
    (hbad : valueOf e (src.getD p 0) = 255) :
    Decode e src = (decodedPrefix e (src.take p), some p) ∧
    ∀ rest : List Nat,
      Decode e (src.take p ++ src.getD p 0 :: rest)
        = (decodedPrefix e (src.take p), some p) := by
  have hlen : (src.take p).length = p := by
    rw [List.length_take]
    omega
  refine ⟨decode_stops_at_invalid e src p hp hvalid hbad, ?_⟩
  intro rest
  have hp' : p < (src.take p ++ src.getD p 0 :: rest).length := by
    simp [hlen]
  have htake : (src.take p ++ src.getD p 0 :: rest).take p = src.take p := by
    rw [List.take_append_of_le_length (by omega)]
    simp [List.take_take]
  have hgetD : (src.take p ++ src.getD p 0 :: rest).getD p 0 = src.getD p 0 := by
    rw [List.getD_eq_getElem?_getD,
      List.getElem?_append_right (by omega : (src.take p).length ≤ p), hlen]
    simp
  have h2 := decode_stops_at_invalid e (src.take p ++ src.getD p 0 :: rest) p hp'
    (by rw [htake]; exact hvalid) (by rw [hgetD]; exact hbad)
  rw [h2, htake]

set_option maxRecDepth 40000 in
set_option maxHeartbeats 1000000 in
/-- Witness for C2: decoding `"A B"` (a space, not in the standard alphabet,
at position 1) stops at position 1 with no bytes produced. -/
theorem c2_corrupt_input_witness :
    Decode StdEncoding [65, 32, 66] =
      (decodedPrefix StdEncoding ([65, 32, 66].take 1), some 1) :=
  (c2_corrupt_input StdEncoding [65, 32, 66] 1 (by decide) (by decide)
    (by decide)).1

/-! ### Claim C10: a lone valid symbol decodes to one byte -/

theorem encodeStep_em (e : Encoding) (q nb b : Nat) :
    ((encodeStep e q nb b).2.2 = [] ∧ (encodeStep e q nb b).2.1 = nb + 8) ∨
    (encodeStep e q nb b).2.2.length = 2 := by
  simp only [encodeStep]
  split
  · split <;> (right; rfl)
  · left
    exact ⟨rfl, rfl⟩

theorem encodeLoop_parity (e : Encoding) :
    ∀ (src : List Nat) (q nb : Nat) (out : List Nat),
      (encodeLoop e src q nb out).2.2.length % 2 = out.length % 2
  | [], _, _, _ => rfl
  | b :: src, q, nb, out => by
    rcases hstep : encodeStep e q nb b with ⟨q1, n1, em⟩
    have hem := encodeStep_em e q nb b
    rw [hstep] at hem
    have hem2 : em.length = 0 ∨ em.length = 2 := by
      rcases hem with ⟨h1, -⟩ | h2
      · left
        simp only at h1
        rw [h1]
        rfl
      · right
        exact h2
    simp only [encodeLoop, hstep]
    rw [encodeLoop_parity e src q1 n1 (out ++ em), List.length_append]
    omega

theorem encodeLoop_out_nil (e : Encoding) :
    ∀ (src : List Nat) (q nb : Nat),
      (encodeLoop e src q nb []).2.2 = [] →
      (encodeLoop e src q nb []).2.1 = nb + 8 * src.length
  | [], q, nb, _ => by simp [encodeLoop]
  | b :: src, q, nb, hout => by
    rcases hstep : encodeStep e q nb b with ⟨q1, n1, em⟩
    have hem := encodeStep_em e q nb b
    rw [hstep] at hem
    simp only [encodeLoop, hstep, List.nil_append] at hout ⊢
    rcases hem with ⟨h1, h2⟩ | h2
    · simp only at h1 h2
      subst h1
      rw [encodeLoop_out_nil e src q1 n1 hout, h2]
      simp only [List.length_cons]
      omega
    · exfalso
      rw [encodeLoop_acc e src q1 n1 em] at hout
      simp only at hout
      rcases List.append_eq_nil.mp hout with ⟨hem0, -⟩
      rw [hem0] at h2
      cases h2

/-- C10: for a table built by `NewEncoding` and any symbol `s` of its
alphabet, decoding the one-symbol sequence `[s]` succeeds and yields exactly
the single byte `valueOf s` — even though `Encode` never produces an output
of length 1, so `Decode` accepts inputs no encoding produces. -/
theorem c10_single_symbol (encoder : List Nat) (E : Encoding) (s : Nat)
    (hE : NewEncoding encoder = some E) (hs : valueOf E s ≠ 255) :
    Decode E [s] = ([valueOf E s], none) ∧
    ∀ src : List Nat, (Encode E src).length ≠ 1 := by
  constructor
  · have hd : valueOf E s < 256 := valueOf_lt_256 hE s
    simp only [Decode, decodeFinish, decodeLoop, if_neg hs]
    rw [Nat.shiftLeft_zero, Nat.zero_or, Nat.mod_eq_of_lt hd]
    simp
  · intro src h1
    rcases hloop : encodeLoop E src 0 0 [] with ⟨q', nb', outL⟩
    have hpar := encodeLoop_parity E src 0 0 []
    rw [hloop] at hpar
    simp only [List.length_nil] at hpar
    have hEnc : Encode E src = outL ++ encodeFlushSyms E q' nb' := by
      simp only [Encode, encodeFrom, hloop]
    rw [hEnc, List.length_append] at h1
    have houtL : outL.length = 0 := by
      have hfl : (encodeFlushSyms E q' nb').length ≤ 2 := by
        simp only [encodeFlushSyms]
        split
        · split <;> simp
        · simp
      omega
    have houtnil : outL = [] := List.length_eq_zero.mp houtL
    have hnb' : nb' = 8 * src.length := by
      have := encodeLoop_out_nil E src 0 0 (by rw [hloop]; exact houtnil)
      rw [hloop] at this
      simpa using this
    have hfl1 : (encodeFlushSyms E q' nb').length = 1 := by omega
    simp only [encodeFlushSyms] at hfl1
    by_cases hpos : nb' > 0
    · rw [if_pos hpos] at hfl1
      by_cases hbig : nb' > 7 ∨ q' > 90
      · rw [if_pos hbig] at hfl1
        cases hfl1
      · rw [if_neg hbig] at hfl1
        push_neg at hbig
        omega
    · rw [if_neg hpos] at hfl1
      cases hfl1

set_option maxRecDepth 40000 in
set_option maxHeartbeats 1000000 in
/-- Witness for C10: symbol `'B'` (66, code 1) alone decodes to the single
byte 1 under the standard encoding. -/
theorem c10_single_symbol_witness :
    Decode StdEncoding [66] = ([valueOf StdEncoding 66], none) :=
  (c10_single_symbol encodeStd StdEncoding 66 (by decide) (by decide)).1

/-! ### Claim C3: encoded length bound -/

/-- Length invariant of the encode loop: 13·(symbols emitted) + 2·numBits
never exceeds 16·(bytes consumed) + 2·(initial numBits); moreover the queue
always fits in `numBits` bits and `numBits ≤ 13` at the loop top. -/
theorem encodeLoop_len_inv (e : Encoding) :
    ∀ (src : List Nat) (q nb : Nat), (∀ b ∈ src, b < 256) → nb ≤ 13 → q < 2 ^ nb →
      13 * (encodeLoop e src q nb []).2.2.length + 2 * (encodeLoop e src q nb []).2.1 ≤
          16 * src.length + 2 * nb ∧
        (encodeLoop e src q nb []).1 < 2 ^ (encodeLoop e src q nb []).2.1 ∧
        (encodeLoop e src q nb []).2.1 ≤ 13
  | [], q, nb, _, hnb, hq => by
    simp only [encodeLoop, List.length_nil]
    exact ⟨by omega, hq, hnb⟩
  | b :: src, q, nb, hsrc, hnb, hq => by
    have hb : b < 256 := hsrc b (by simp)
    have hrest : ∀ x ∈ src, x < 256 := fun x hx => hsrc x (by simp [hx])
    have hq1 : q ||| (b <<< nb) = q + b * 2 ^ nb := lor_shiftLeft_eq b hq
    have hq1lt : q + b * 2 ^ nb < 2 ^ (nb + 8) := by
      have hpow : (0 : Nat) < 2 ^ nb := pow_pos (by norm_num) nb
      have h1 : q + b * 2 ^ nb < (b + 1) * 2 ^ nb := by nlinarith
      have h2 : (b + 1) * 2 ^ nb ≤ 256 * 2 ^ nb := by nlinarith
      have h3 : (256 : Nat) * 2 ^ nb = 2 ^ (nb + 8) := by
        rw [pow_add]
        ring
      omega
    rcases hstep : encodeStep e q nb b with ⟨q1, n1, em⟩
    simp only [encodeLoop, hstep, List.nil_append]
    simp only [encodeStep, hq1] at hstep
    by_cases hext : nb + 8 > 13
    · rw [if_pos hext] at hstep
      by_cases h88 : (q + b * 2 ^ nb) &&& 8191 > 88
      · rw [if_pos h88] at hstep
        injection hstep with hA hstep
        injection hstep with hB hC
        have hq1' : q1 < 2 ^ n1 := by
          rw [← hA, ← hB, Nat.shiftRight_eq_div_pow]
          apply Nat.div_lt_of_lt_mul
          have : (2 : Nat) ^ (nb + 8 - 13) * 2 ^ 13 = 2 ^ (nb + 8) := by
            rw [← pow_add]
            congr 1
            omega
          omega
        have hn1 : n1 ≤ 13 := by omega
        obtain ⟨ih1, ih2, ih3⟩ :=
          encodeLoop_len_inv e src q1 n1 hrest hn1 hq1'
        rw [encodeLoop_acc e src q1 n1 em]
        refine ⟨?_, ih2, ih3⟩
        simp only [List.length_append, List.length_cons]
        have hemlen : em.length = 2 := by
          rw [← hC]
          rfl
        omega
      · rw [if_neg h88] at hstep
        injection hstep with hA hstep
        injection hstep with hB hC
        have hq1' : q1 < 2 ^ n1 := by
          rw [← hA, ← hB, Nat.shiftRight_eq_div_pow]
          apply Nat.div_lt_of_lt_mul
          have : (2 : Nat) ^ (nb + 8 - 14) * 2 ^ 14 = 2 ^ (nb + 8) := by
            rw [← pow_add]
            congr 1
            omega
          omega
        have hn1 : n1 ≤ 13 := by omega
        obtain ⟨ih1, ih2, ih3⟩ :=
          encodeLoop_len_inv e src q1 n1 hrest hn1 hq1'
        rw [encodeLoop_acc e src q1 n1 em]
        refine ⟨?_, ih2, ih3⟩
        simp only [List.length_append, List.length_cons]
        have hemlen : em.length = 2 := by
          rw [← hC]
          rfl
        omega
    · rw [if_neg hext] at hstep
      injection hstep with hA hstep
      injection hstep with hB hC
      have hq1' : q1 < 2 ^ n1 := by
        rw [← hA, ← hB]
        exact hq1lt
      have hn1 : n1 ≤ 13 := by omega
      obtain ⟨ih1, ih2, ih3⟩ := encodeLoop_len_inv e src q1 n1 hrest hn1 hq1'
      rw [encodeLoop_acc e src q1 n1 em]
      refine ⟨?_, ih2, ih3⟩
      simp only [List.length_append, List.length_cons]
      have hemlen : em.length = 0 := by
        rw [← hC]
        rfl
      omega

/-- For every byte sequence, `Encode` writes at most `⌈16n/13⌉` symbols
(`ceilEncodedLen`, the value `EncodedLen` is documented to compute),
characterised as the least `m` with `16n ≤ 13m`. -/
theorem encode_len_le_ceil (e : Encoding) (src : List Nat)
    (hsrc : ∀ b ∈ src, b < 256) :
    (Encode e src).length ≤ ceilEncodedLen src.length ∧
    (∀ m : Nat, ceilEncodedLen src.length ≤ m ↔ 16 * src.length ≤ 13 * m) := by
  constructor
  · rcases hloop : encodeLoop e src 0 0 [] with ⟨q', nb', outL⟩
    have inv := encodeLoop_len_inv e src 0 0 hsrc (by omega) (by norm_num)
    rw [hloop] at inv
    simp only [List.length_nil, Nat.mul_zero, Nat.add_zero] at inv
    obtain ⟨hbound, hqlt, hnble⟩ := inv
    have hEnc : Encode e src = outL ++ encodeFlushSyms e q' nb' := by
      simp only [Encode, encodeFrom, hloop]
    rw [hEnc, List.length_append]
    have hflush : 13 * (encodeFlushSyms e q' nb').length ≤ 2 * nb' + 12 := by
      simp only [encodeFlushSyms]
      by_cases hpos : nb' > 0
      · rw [if_pos hpos]
        by_cases hbig : nb' > 7 ∨ q' > 90
        · rw [if_pos hbig]
          have hnb7 : 7 ≤ nb' := by
            rcases hbig with hbig | hbig
            · omega
            · by_contra hlt
              have : (2 : Nat) ^ nb' ≤ 2 ^ 6 :=
                Nat.pow_le_pow_right (by norm_num) (by omega)
              have h64 : (2 : Nat) ^ 6 = 64 := by norm_num
              omega
          simp
          omega
        · rw [if_neg hbig]
          simp
          omega
      · rw [if_neg hpos]
        simp only [List.length_nil]
        omega
    simp only [ceilEncodedLen]
    omega
  · intro m
    simp only [ceilEncodedLen]
    omega

/-! ### Claim C1: the round trip -/

/-- Arithmetic characterisation of an extracting `encodeStep`: some width
`w ∈ {13, 14}` is consumed, the emitted pair encodes `v = Q % 2^w` (where
`Q` is the queue with the byte merged), the decoder's width rule recovers
`w` from `v`, and `v ≤ 8280` so that `v / 91 ≤ 90`. -/
theorem encodeStep_extract_spec (e : Encoding) (q nb b : Nat) (hq : q < 2 ^ nb)
    (hext : 13 < nb + 8) :
    ∃ w, (w = 13 ∨ w = 14) ∧
      encodeStep e q nb b =
        ((q + b * 2 ^ nb) / 2 ^ w, nb + 8 - w,
         [encodeSym e (((q + b * 2 ^ nb) % 2 ^ w) % 91),
          encodeSym e (((q + b * 2 ^ nb) % 2 ^ w) / 91)]) ∧
      (if ((q + b * 2 ^ nb) % 2 ^ w) &&& 8191 > 88 then 13 else 14) = w ∧
      (q + b * 2 ^ nb) % 2 ^ w ≤ 8280 := by
  have hlor : q ||| (b <<< nb) = q + b * 2 ^ nb := lor_shiftLeft_eq b hq
  have h13 : (2 : Nat) ^ 13 = 8192 := by norm_num
  have h14 : (2 : Nat) ^ 14 = 16384 := by norm_num
  by_cases h88 : (q + b * 2 ^ nb) % 8192 > 88
  · refine ⟨13, Or.inl rfl, ?_, ?_, ?_⟩
    · simp only [encodeStep, hlor, and_8191_eq, and_16383_eq, if_pos hext,
        if_pos h88, Nat.shiftRight_eq_div_pow, h13]
    · rw [and_8191_eq, h13]
      rw [if_pos (by omega)]
    · rw [h13]
      omega
  · refine ⟨14, Or.inr rfl, ?_, ?_, ?_⟩
    · simp only [encodeStep, hlor, and_8191_eq, and_16383_eq, if_pos hext,
        if_neg h88, Nat.shiftRight_eq_div_pow, h14]
    · rw [and_8191_eq, h14]
      have hmm : (q + b * 2 ^ nb) % 16384 % 8192 = (q + b * 2 ^ nb) % 8192 :=
        Nat.mod_mod_of_dvd _ (by norm_num)
      rw [if_neg (by omega)]
    · rw [h14]
      have hmm : (q + b * 2 ^ nb) % 16384 % 8192 = (q + b * 2 ^ nb) % 8192 :=
        Nat.mod_mod_of_dvd _ (by norm_num)
      omega

/-- Disjoint bit ranges: a value below `2^dn` plus a value below `2^nb`
shifted by `dn` stays below `2^(dn+nb)`. -/
theorem combine_lt {dq q dn nb : Nat} (h1 : dq < 2 ^ dn) (h2 : q < 2 ^ nb) :
    dq + q * 2 ^ dn < 2 ^ (dn + nb) := by
  have hp : (0 : Nat) < 2 ^ dn := pow_pos (by norm_num) dn
  have : dq + q * 2 ^ dn < (q + 1) * 2 ^ dn := by nlinarith
  have h3 : (q + 1) * 2 ^ dn ≤ 2 ^ nb * 2 ^ dn := by nlinarith
  have h4 : (2 : Nat) ^ nb * 2 ^ dn = 2 ^ (dn + nb) := by
    rw [← pow_add]
    congr 1
    omega
  omega

theorem encodeFrom_cons2 (e : Encoding) (b : Nat) (src : List Nat) (q nb q1 n1 : Nat)
    (em : List Nat) (hstep : encodeStep e q nb b = (q1, n1, em)) :
    encodeFrom e (b :: src) q nb = em ++ encodeFrom e src q1 n1 := by
  rw [encodeFrom_cons e b src q nb, hstep]

/-- Decoding one emitted digit pair: the decoder recovers the value `v`, the
width `w` (by the same 13/14 rule), merges `v` into its queue and drains
whole bytes. -/
theorem decodeLoop_pair (e : Encoding)
    (hval : ∀ j, j < 91 → valueOf e (encodeSym e j) = j)
    (v dq dn i : Nat) (dout : List Nat) (w : Nat)
    (hvb : v ≤ 8280) (hdq : dq < 2 ^ dn)
    (hwidth : (if v &&& 8191 > 88 then 13 else 14) = w)
    (hw8 : 8 ≤ dn + w) :
    decodeLoop e [encodeSym e (v % 91), encodeSym e (v / 91)] i dq dn none dout =
      Sum.inl ((dq + v * 2 ^ dn) >>> (8 * ((dn + w) / 8)), (dn + w) % 8, none,
        dout ++ lowBytes (dq + v * 2 ^ dn) ((dn + w) / 8)) := by
  have h91 : v % 91 < 91 := Nat.mod_lt _ (by norm_num)
  have hdiv91 : v / 91 < 91 := by omega
  have hs1 : valueOf e (encodeSym e (v % 91)) = v % 91 := hval _ h91
  have hs2 : valueOf e (encodeSym e (v / 91)) = v / 91 := hval _ hdiv91
  have hs1ne : ¬ valueOf e (encodeSym e (v % 91)) = 255 := by
    rw [hs1]
    omega
  have hs2ne : ¬ valueOf e (encodeSym e (v / 91)) = 255 := by
    rw [hs2]
    omega
  have hv1 : v % 91 + v / 91 * 91 = v := Nat.mod_add_div' v 91
  have hlor : dq ||| (v <<< dn) = dq + v * 2 ^ dn := lor_shiftLeft_eq v hdq
  simp only [decodeLoop, if_neg hs1ne, if_neg hs2ne, hs1, hs2, hv1, hlor, hwidth]
  rw [drainQueue_eq (dn + w) (dq + v * 2 ^ dn) dout hw8]
  rw [if_neg (show ¬ v % 91 = 255 by omega), if_neg (show ¬ v / 91 = 255 by omega)]

/-- Decoding the encoder's end-of-input flush recovers exactly the pending
bytes of the combined bit queue. -/
theorem encdec_flush (e : Encoding)
    (hval : ∀ j, j < 91 → valueOf e (encodeSym e j) = j)
    (q nb dq dn i : Nat) (dout : List Nat)
    (hq : q < 2 ^ nb) (hnb : nb ≤ 13) (hdq : dq < 2 ^ dn) (hdn : dn ≤ 7)
    (hal : (dn + nb) % 8 = 0) :
    decodeFinish e (encodeFlushSyms e q nb) i dq dn none dout =
      (dout ++ lowBytes (dq + q * 2 ^ dn) ((dn + nb) / 8), none) := by
  by_cases hpos : nb > 0
  · by_cases hbig : nb > 7 ∨ q > 90
    · have h2nb : (2 : Nat) ^ nb ≤ 8192 := by
        calc (2 : Nat) ^ nb ≤ 2 ^ 13 := Nat.pow_le_pow_right (by norm_num) hnb
          _ = 8192 := by norm_num
      have hq8192 : q < 8192 := by omega
      have hnb7 : 7 ≤ nb := by
        rcases hbig with h | h
        · omega
        · by_contra hcon
          have hle : (2 : Nat) ^ nb ≤ 2 ^ 6 :=
            Nat.pow_le_pow_right (by norm_num) (by omega)
          have h64 : (2 : Nat) ^ 6 = 64 := by norm_num
          omega
      obtain ⟨w, hwEq, hwlo, hwhi⟩ :
          ∃ w, (if q &&& 8191 > 88 then 13 else 14) = w ∧ 13 ≤ w ∧ w ≤ 14 := by
        refine ⟨if q &&& 8191 > 88 then 13 else 14, rfl, ?_, ?_⟩ <;> split <;> omega
      have hflushEq : encodeFlushSyms e q nb =
          [encodeSym e (q % 91), encodeSym e (q / 91)] := by
        simp only [encodeFlushSyms, if_pos hpos, if_pos hbig]
      have hpair := decodeLoop_pair e hval q dq dn i dout w (by omega) hdq hwEq (by omega)
      rw [hflushEq]
      simp only [decodeFinish, hpair]
      have ht : (dn + w) / 8 = (dn + nb) / 8 := by omega
      rw [ht]
    · push_neg at hbig
      obtain ⟨hb7, hq90⟩ := hbig
      have h8 : dn + nb = 8 := by omega
      have hq91 : q % 91 = q := Nat.mod_eq_of_lt (by omega)
      have hflushEq : encodeFlushSyms e q nb = [encodeSym e (q % 91)] := by
        simp only [encodeFlushSyms, if_pos hpos]
        rw [if_neg (by omega)]
      have hs : valueOf e (encodeSym e q) = q := hval _ (by omega)
      have hsne : ¬ valueOf e (encodeSym e q) = 255 := by
        rw [hs]
        omega
      rw [hflushEq]
      simp only [decodeFinish, decodeLoop, hq91, if_neg hsne, hs]
      rw [if_neg (show ¬ q = 255 by omega)]
      show (dout ++ [(dq ||| (q <<< dn)) % 256], none) =
        (dout ++ lowBytes (dq + q * 2 ^ dn) ((dn + nb) / 8), none)
      rw [lor_shiftLeft_eq q hdq]
      have hk : (dn + nb) / 8 = 1 := by omega
      rw [hk]
      rfl
  · have hnb0 : nb = 0 := by omega
    subst hnb0
    have hone : (2 : Nat) ^ 0 = 1 := rfl
    have hq0 : q = 0 := by omega
    have hdn0 : dn = 0 := by omega
    subst hdn0
    have hdq0 : dq = 0 := by omega
    subst hq0
    subst hdq0
    simp [encodeFlushSyms, decodeFinish, decodeLoop, lowBytes]

/-- Main round-trip invariant: decoding the encoder's remaining output
(from any reachable pair of encoder and decoder states whose pending bits
are aligned to a whole number of bytes) yields the combined pending bytes
followed by the remaining source bytes. -/
theorem encdec_aux (e : Encoding)
    (hval : ∀ j, j < 91 → valueOf e (encodeSym e j) = j) :
    ∀ (src : List Nat) (q nb dq dn i : Nat) (dout : List Nat),
      (∀ b ∈ src, b < 256) →
      q < 2 ^ nb → nb ≤ 13 → dq < 2 ^ dn → dn ≤ 7 → (dn + nb) % 8 = 0 →
      decodeFinish e (encodeFrom e src q nb) i dq dn none dout =
        (dout ++ lowBytes (dq + q * 2 ^ dn) ((dn + nb) / 8) ++ src, none)
  | [], q, nb, dq, dn, i, dout, _, hq, hnb, hdq, hdn, hal => by
    rw [encodeFrom_nil, encdec_flush e hval q nb dq dn i dout hq hnb hdq hdn hal]
    simp
  | b :: src, q, nb, dq, dn, i, dout, hsrc, hq, hnb, hdq, hdn, hal => by
    have hb : b < 256 := hsrc b (by simp)
    have hrest : ∀ x ∈ src, x < 256 := fun x hx => hsrc x (by simp [hx])
    have h256 : (2 : Nat) ^ 8 = 256 := by norm_num
    have hb2 : b < 2 ^ 8 := by omega
    have hQlt : q + b * 2 ^ nb < 2 ^ (nb + 8) := combine_lt hq hb2
    have hX : dq + q * 2 ^ dn < 2 ^ (dn + nb) := combine_lt hdq hq
    have hXk : dq + q * 2 ^ dn < 2 ^ (8 * ((dn + nb) / 8)) := by
      have : 8 * ((dn + nb) / 8) = dn + nb := by omega
      rw [this]
      exact hX
    have hpow_split : (2 : Nat) ^ (dn + nb) = 2 ^ dn * 2 ^ nb := by rw [pow_add]
    have hYdef : dq + (q + b * 2 ^ nb) * 2 ^ dn
        = (dq + q * 2 ^ dn) + b * 2 ^ (8 * ((dn + nb) / 8)) := by
      have h1 : 8 * ((dn + nb) / 8) = dn + nb := by omega
      rw [h1, hpow_split]
      ring
    have hsnoc : lowBytes (dq + (q + b * 2 ^ nb) * 2 ^ dn) ((dn + nb) / 8 + 1)
        = lowBytes (dq + q * 2 ^ dn) ((dn + nb) / 8) ++ [b] := by
      rw [hYdef]
      exact lowBytes_snoc _ _ _ hXk hb
    by_cases hext : 13 < nb + 8
    · obtain ⟨w, hwor, hstepEq, hwidth, hvb⟩ := encodeStep_extract_spec e q nb b hq hext
      have hw13 : 13 ≤ w := by rcases hwor with h | h <;> omega
      have hw14 : w ≤ 14 := by rcases hwor with h | h <;> omega
      have hnb6 : 6 ≤ nb := by omega
      rw [encodeFrom_cons2 e b src q nb _ _ _ hstepEq]
      rw [decodeFinish_append e _ _ i dq dn none dout]
      have hvlt : (q + b * 2 ^ nb) % 2 ^ w < 2 ^ w :=
        Nat.mod_lt _ (pow_pos (by norm_num) w)
      have hpair := decodeLoop_pair e hval ((q + b * 2 ^ nb) % 2 ^ w) dq dn i dout w
        hvb hdq hwidth (by omega)
      simp only [hpair, List.length_cons, List.length_nil]
      have hshr : (dq + (q + b * 2 ^ nb) % 2 ^ w * 2 ^ dn) >>> (8 * ((dn + w) / 8))
          = (dq + (q + b * 2 ^ nb) % 2 ^ w * 2 ^ dn) / 2 ^ (8 * ((dn + w) / 8)) :=
        Nat.shiftRight_eq_div_pow _ _
      rw [hshr]
      have hZ : dq + (q + b * 2 ^ nb) % 2 ^ w * 2 ^ dn < 2 ^ (dn + w) :=
        combine_lt hdq hvlt
      have hq1 : (q + b * 2 ^ nb) / 2 ^ w < 2 ^ (nb + 8 - w) := by
        apply Nat.div_lt_of_lt_mul
        have hpw : (2 : Nat) ^ w * 2 ^ (nb + 8 - w) = 2 ^ (nb + 8) := by
          rw [← pow_add]
          congr 1
          omega
        omega
      have hdq2 : (dq + (q + b * 2 ^ nb) % 2 ^ w * 2 ^ dn) / 2 ^ (8 * ((dn + w) / 8))
          < 2 ^ ((dn + w) % 8) := by
        apply Nat.div_lt_of_lt_mul
        have hpw : (2 : Nat) ^ (8 * ((dn + w) / 8)) * 2 ^ ((dn + w) % 8)
            = 2 ^ (dn + w) := by
          rw [← pow_add]
          congr 1
          omega
        omega
      rw [encdec_aux e hval src ((q + b * 2 ^ nb) / 2 ^ w) (nb + 8 - w)
        ((dq + (q + b * 2 ^ nb) % 2 ^ w * 2 ^ dn) / 2 ^ (8 * ((dn + w) / 8)))
        ((dn + w) % 8) (i + 1 + 1)
        (dout ++ lowBytes (dq + (q + b * 2 ^ nb) % 2 ^ w * 2 ^ dn) ((dn + w) / 8))
        hrest hq1 (by omega) hdq2 (by omega) (by omega)]
      have hmd : (q + b * 2 ^ nb) % 2 ^ w + 2 ^ w * ((q + b * 2 ^ nb) / 2 ^ w)
          = q + b * 2 ^ nb := Nat.mod_add_div _ _
      have hwsplit : (2 : Nat) ^ (dn + w)
          = 2 ^ ((dn + w) % 8) * 2 ^ (8 * ((dn + w) / 8)) := by
        rw [← pow_add]
        congr 1
        omega
      have hYZ : dq + (q + b * 2 ^ nb) * 2 ^ dn
          = (dq + (q + b * 2 ^ nb) % 2 ^ w * 2 ^ dn)
            + ((q + b * 2 ^ nb) / 2 ^ w * 2 ^ ((dn + w) % 8)) * 2 ^ (8 * ((dn + w) / 8)) := by
        obtain ⟨A, hA⟩ : ∃ A, (q + b * 2 ^ nb) % 2 ^ w = A := ⟨_, rfl⟩
        obtain ⟨D, hD⟩ : ∃ D, (q + b * 2 ^ nb) / 2 ^ w = D := ⟨_, rfl⟩
        rw [hA, hD] at hmd ⊢
        rw [← hmd]
        have h1 : (2 : Nat) ^ ((dn + w) % 8) * 2 ^ (8 * ((dn + w) / 8))
            = 2 ^ w * 2 ^ dn := by
          rw [← pow_add, ← pow_add]
          congr 1
          omega
        calc dq + (A + 2 ^ w * D) * 2 ^ dn
            = dq + A * 2 ^ dn + D * (2 ^ w * 2 ^ dn) := by ring
          _ = dq + A * 2 ^ dn
              + D * (2 ^ ((dn + w) % 8) * 2 ^ (8 * ((dn + w) / 8))) := by rw [h1]
          _ = dq + A * 2 ^ dn
              + D * 2 ^ ((dn + w) % 8) * 2 ^ (8 * ((dn + w) / 8)) := by ring
      have hdiv : (dq + (q + b * 2 ^ nb) % 2 ^ w * 2 ^ dn) / 2 ^ (8 * ((dn + w) / 8))
            + (q + b * 2 ^ nb) / 2 ^ w * 2 ^ ((dn + w) % 8)
          = (dq + (q + b * 2 ^ nb) * 2 ^ dn) / 2 ^ (8 * ((dn + w) / 8)) := by
        rw [hYZ, Nat.add_mul_div_right _ _ (pow_pos (by norm_num) _)]
      have hcongr : lowBytes (dq + (q + b * 2 ^ nb) % 2 ^ w * 2 ^ dn) ((dn + w) / 8)
          = lowBytes (dq + (q + b * 2 ^ nb) * 2 ^ dn) ((dn + w) / 8) := by
        apply lowBytes_congr_mod
        rw [hYZ, Nat.add_mul_mod_self_right]
      have hk2 : ((dn + w) % 8 + (nb + 8 - w)) / 8 = (dn + nb) / 8 + 1 - (dn + w) / 8 := by
        omega
      have hsplit2 : lowBytes (dq + (q + b * 2 ^ nb) * 2 ^ dn) ((dn + nb) / 8 + 1)
          = lowBytes (dq + (q + b * 2 ^ nb) * 2 ^ dn) ((dn + w) / 8)
            ++ lowBytes ((dq + (q + b * 2 ^ nb) * 2 ^ dn) / 2 ^ (8 * ((dn + w) / 8)))
                ((dn + nb) / 8 + 1 - (dn + w) / 8) := by
        have hstep1 : lowBytes (dq + (q + b * 2 ^ nb) * 2 ^ dn) ((dn + nb) / 8 + 1)
            = lowBytes (dq + (q + b * 2 ^ nb) * 2 ^ dn)
                ((dn + w) / 8 + ((dn + nb) / 8 + 1 - (dn + w) / 8)) := by
          congr 1
          omega
        rw [hstep1, lowBytes_split]
      rw [hk2, hdiv, hcongr]
      have hlist : lowBytes (dq + q * 2 ^ dn) ((dn + nb) / 8) ++ b :: src
          = lowBytes (dq + (q + b * 2 ^ nb) * 2 ^ dn) ((dn + w) / 8)
            ++ lowBytes ((dq + (q + b * 2 ^ nb) * 2 ^ dn) / 2 ^ (8 * ((dn + w) / 8)))
                ((dn + nb) / 8 + 1 - (dn + w) / 8)
            ++ src := by
        rw [← hsplit2, hsnoc]
        simp
      congr 1
      simp only [List.append_assoc] at hlist ⊢
      rw [hlist]
    · have hstepEq : encodeStep e q nb b = (q ||| (b <<< nb), nb + 8, []) := by
        simp only [encodeStep, if_neg hext]
      rw [lor_shiftLeft_eq b hq] at hstepEq
      rw [encodeFrom_cons2 e b src q nb _ _ _ hstepEq, List.nil_append]
      rw [encdec_aux e hval src (q + b * 2 ^ nb) (nb + 8) dq dn i dout hrest hQlt
        (by omega) hdq hdn (by omega)]
      have hk1 : (dn + (nb + 8)) / 8 = (dn + nb) / 8 + 1 := by omega
      rw [hk1, hsnoc]
      simp [List.append_assoc]

/-- For a table built from 91 distinct byte values, looking up an emitted
symbol recovers its code. -/
theorem valid_table_bijection (encoder : List Nat) (hlen : encoder.length = 91)
    (hnd : encoder.Nodup) (hbyte : ∀ c ∈ encoder, c < 256) :
    ∀ j, j < 91 → valueOf ⟨encoder, buildDecodeMap encoder⟩
      (encodeSym ⟨encoder, buildDecodeMap encoder⟩ j) = j := by
  intro j hj
  have hj' : j < encoder.length := by omega
  have hmem : encoder.getD j 0 ∈ encoder := by
    rw [List.getD_eq_getElem encoder 0 hj']
    exact List.getElem_mem hj'
  have hsize : encoder.getD j 0 < (List.replicate 256 255).length := by
    rw [List.length_replicate]
    exact hbyte _ hmem
  have h := setSymbols_getD_idx encoder 0 (List.replicate 256 255) j hnd hj' hsize
  show (setSymbols encoder 0 (List.replicate 256 255)).getD (encoder.getD j 0) 255 = j
  rw [h]
  omega

/-- C1: for every table built by `NewEncoding` from a valid alphabet (91
distinct byte values — in particular the standard encoding) and every byte
sequence `src` (including the empty one), decoding the encoding of `src`
succeeds with no error and returns exactly `src`. -/
theorem c1_roundtrip (encoder : List Nat) (E : Encoding)
    (hE : NewEncoding encoder = some E) (hnd : encoder.Nodup)
    (hbyte : ∀ c ∈ encoder, c < 256)
    (src : List Nat) (hsrc : ∀ b ∈ src, b < 256) :
    Decode E (Encode E src) = (src, none) := by
  rcases newEncoding_inv hE with ⟨hlen, hEeq⟩
  subst hEeq
  have hval := valid_table_bijection encoder hlen hnd hbyte
  have h := encdec_aux _ hval src 0 0 0 0 0 [] hsrc (by norm_num) (by omega)
    (by norm_num) (by omega) (by omega)
  simpa [Decode, Encode, lowBytes] using h

set_option maxRecDepth 40000 in
set_option maxHeartbeats 1000000 in
/-- Witness for C1: `"test"` (bytes 116 101 115 116) round-trips under the
standard encoding. -/
theorem c1_roundtrip_witness :
    Decode StdEncoding (Encode StdEncoding [116, 101, 115, 116]) =
      ([116, 101, 115, 116], none) :=
  c1_roundtrip encodeStd StdEncoding (by decide) (by decide) (by decide)
    [116, 101, 115, 116] (by decide)

/-! ### The worst case is attained, and `EncodedLen`'s float64 slip -/

/-- State evolution of the encode loop on all-`0xFF` input: starting from a
queue of `numBits` one-bits, after `n` bytes (`m := 8n + numBits` total
bits) the count is `(m − 1) % 13 + 1`, the queue is again all one-bits, and
`2 ⬝ ((m − 1) / 13)` symbols were emitted (every extraction takes the
13-bit branch since the low 13 bits are `8191 > 88`). -/
theorem allFF_loop (e : Encoding) :
    ∀ (n nb : Nat) (out : List Nat), nb ≤ 13 → 1 ≤ 8 * n + nb →
      (encodeLoop e (List.replicate n 255) (2 ^ nb - 1) nb out).2.1
          = (8 * n + nb - 1) % 13 + 1 ∧
      (encodeLoop e (List.replicate n 255) (2 ^ nb - 1) nb out).1
          = 2 ^ ((8 * n + nb - 1) % 13 + 1) - 1 ∧
      (encodeLoop e (List.replicate n 255) (2 ^ nb - 1) nb out).2.2.length
          = out.length + 2 * ((8 * n + nb - 1) / 13)
  | 0, nb, out, hnb, hm => by
    have h0 : List.replicate 0 (255 : Nat) = [] := rfl
    rw [h0]
    simp only [encodeLoop]
    refine ⟨by omega, ?_, by omega⟩
    rw [show (8 * 0 + nb - 1) % 13 + 1 = nb by omega]
  | n + 1, nb, out, hnb, hm => by
    have hrepl : List.replicate (n + 1) (255 : Nat) = 255 :: List.replicate n 255 := rfl
    have hpos : (0 : Nat) < 2 ^ nb := pow_pos (by norm_num) nb
    have hq : (2 : Nat) ^ nb - 1 < 2 ^ nb := by omega
    have hlor : ((2 : Nat) ^ nb - 1) ||| (255 <<< nb) = (2 ^ nb - 1) + 255 * 2 ^ nb :=
      lor_shiftLeft_eq 255 hq
    have h256 : (2 : Nat) ^ (nb + 8) = 2 ^ nb * 256 := by
      rw [pow_add]
      norm_num
    have hq1 : (2 : Nat) ^ nb - 1 + 255 * 2 ^ nb = 2 ^ (nb + 8) - 1 := by omega
    by_cases hext : 13 < nb + 8
    · have hpos' : (0 : Nat) < 2 ^ (nb + 8 - 13) := pow_pos (by norm_num) _
      have h8192 : (2 : Nat) ^ (nb + 8) = 8192 * 2 ^ (nb + 8 - 13) := by
        rw [show nb + 8 = 13 + (nb + 8 - 13) by omega, pow_add]
        norm_num
      have hv : ((2 : Nat) ^ (nb + 8) - 1) &&& 8191 = 8191 := by
        rw [and_8191_eq]
        omega
      have hshift : ((2 : Nat) ^ (nb + 8) - 1) >>> 13 = 2 ^ (nb + 8 - 13) - 1 := by
        rw [Nat.shiftRight_eq_div_pow, show (2 : Nat) ^ 13 = 8192 by norm_num]
        omega
      have hstepEq : encodeStep e (2 ^ nb - 1) nb 255 =
          (2 ^ (nb + 8 - 13) - 1, nb + 8 - 13,
           [encodeSym e (8191 % 91), encodeSym e (8191 / 91)]) := by
        simp only [encodeStep, if_pos hext, hlor, hq1, hv, hshift]
        rw [if_pos (by norm_num : (88 : Nat) < 8191)]
      rw [hrepl]
      simp only [encodeLoop, hstepEq]
      obtain ⟨ih1, ih2, ih3⟩ := allFF_loop e n (nb + 8 - 13)
        (out ++ [encodeSym e (8191 % 91), encodeSym e (8191 / 91)])
        (by omega) (by omega)
      refine ⟨?_, ?_, ?_⟩
      · rw [ih1]
        omega
      · rw [ih2]
        congr 2
        omega
      · rw [ih3]
        simp only [List.length_append, List.length_cons, List.length_nil]
        omega
    · have hstepEq : encodeStep e (2 ^ nb - 1) nb 255 =
          (2 ^ (nb + 8) - 1, nb + 8, []) := by
        simp only [encodeStep, if_neg hext, hlor, hq1]
      rw [hrepl]
      simp only [encodeLoop, hstepEq, List.append_nil]
      obtain ⟨ih1, ih2, ih3⟩ := allFF_loop e n (nb + 8) out (by omega) (by omega)
      refine ⟨?_, ?_, ?_⟩
      · rw [ih1]
        omega
      · rw [ih2]
        congr 2
        omega
      · rw [ih3]
        omega

/-- All-`0xFF` inputs attain the worst case: when `n % 13 = 9`, encoding
`n` bytes of `0xFF` emits exactly `⌈16n/13⌉` symbols (5 thirteen-bit
extractions per 13 input bytes, and a two-symbol flush of 7 pending bits). -/
theorem encode_allFF_len (e : Encoding) (n : Nat) (hn : n % 13 = 9) :
    (Encode e (List.replicate n 255)).length = (16 * n + 12) / 13 := by
  obtain ⟨h1, h2, h3⟩ := allFF_loop e n 0 [] (by omega) (by omega)
  rw [show (2 : Nat) ^ 0 - 1 = 0 from rfl] at h1 h2 h3
  rcases hloop : encodeLoop e (List.replicate n 255) 0 0 [] with ⟨q', nb', outL⟩
  rw [hloop] at h1 h2 h3
  simp only at h1 h2 h3
  have hnb' : nb' = 7 := by omega
  have hq' : q' = 127 := by
    rw [h2, show (8 * n + 0 - 1) % 13 + 1 = 7 by omega]
    norm_num
  have hEnc : Encode e (List.replicate n 255) = outL ++ encodeFlushSyms e q' nb' := by
    simp only [Encode, encodeFrom, hloop]
  rw [hEnc, List.length_append, hq', hnb']
  have hflush : (encodeFlushSyms e 127 7).length = 2 := by
    simp [encodeFlushSyms]
  rw [hflush]
  simp only [List.length_nil] at h3
  omega

/-- `Nat.log2 n` is the `k` with `2 ^ k ≤ n < 2 ^ (k + 1)` (needed because
`Nat.log2`'s well-founded recursion does not reduce inside `decide`). -/
theorem log2_eq_of (n k : Nat) (h1 : 2 ^ k ≤ n) (h2 : n < 2 ^ (k + 1)) :
    Nat.log2 n = k := by
  have hn : n ≠ 0 := by
    have : (0 : Nat) < 2 ^ k := pow_pos (by norm_num) k
    omega
  have hlt : Nat.log2 n < k + 1 := (Nat.log2_lt hn).mpr h2
  have hle : k ≤ Nat.log2 n := (Nat.le_log2 hn).mpr h1
  omega

set_option maxRecDepth 40000 in
set_option maxHeartbeats 1000000 in
/-- C3 (refuted by the code — a float64 slip): the claim asserts that
`EncodedLen n = ⌈16n/13⌉` for every `n ≥ 0` and that every `n`-byte input
encodes to at most `EncodedLen n` symbols.  At `n = 914793674309641`
(`16n ≡ 1 mod 13`, quotient above `2^50`) the binary64 quotient rounds
down, so the program returns `1125899906842635` while the exact ceiling is
`1125899906842636`; and the `n`-byte all-`0xFF` input encodes to exactly
`1125899906842636` symbols, exceeding the documented upper bound.  So both
halves of the claim fail at this input: the code contradicts its own
doc comment ("an upper bound on the length"). -/
theorem c3_encoded_len_float_bug :
    EncodedLen 914793674309641 = 1125899906842635 ∧
    ceilEncodedLen 914793674309641 = 1125899906842636 ∧
    EncodedLen 914793674309641 < ceilEncodedLen 914793674309641 ∧
    ∀ e : Encoding,
      (Encode e (List.replicate 914793674309641 255)).length
        = 1125899906842636 := by
  have hfl : floatOfNat 914793674309641 = 914793674309641 := by
    simp only [floatOfNat]
    rw [if_pos (by norm_num)]
  have hlog : Nat.log2 (16 * 914793674309641 / 13) = 50 :=
    log2_eq_of _ 50 (by norm_num) (by norm_num)
  have hEnc : EncodedLen 914793674309641 = 1125899906842635 := by
    simp only [EncodedLen, hfl]
    rw [if_neg (by norm_num), hlog, if_pos (by norm_num)]
    decide
  refine ⟨hEnc, by decide, ?_, ?_⟩
  · rw [hEnc]
    decide
  · intro e
    rw [encode_allFF_len e 914793674309641 (by decide)]

end Base91
